import Mathlib

/-!
Verification of the LaTeX-glossary-to-Anki converter (src/main.py).

The program is embedded shallowly over `List Char`: each Python function
becomes a total Lean function of the same name.  Python's `-1` "not found"
results become `Option Nat`; the `while`-loops that scan the buffer become
fuel-indexed recursions, invoked with enough fuel (`length + 1`) that the
fuel never runs out (this is proved where a claim needs it).
-/

namespace LatexAnki

/-- The whitespace characters recognised by Python's `\s` / `str.strip`
    on the ASCII range (space, tab, newline, carriage return, vertical
    tab, form feed). -/
def isSpace (c : Char) : Bool :=
  c = ' ' || c = '\t' || c = '\n' || c = '\r' || c = '\x0b' || c = '\x0c'

/-- ASCII letter test, Python's `[a-zA-Z]`. -/
def isAsciiAlpha (c : Char) : Bool :=
  ('a' ≤ c && c ≤ 'z') || ('A' ≤ c && c ≤ 'Z')

/-- Python slicing `l[a:b]` (for the non-negative indices the program uses). -/
def slice (l : List Char) (a b : Nat) : List Char := (l.drop a).take (b - a)

/-- Drop leading whitespace (one side of Python's `str.strip`). -/
def dropWS : List Char → List Char
  | [] => []
  | c :: rest => if isSpace c then dropWS rest else c :: rest

/-- Python's `str.strip()`: drop leading and trailing whitespace. -/
def stripWS (l : List Char) : List Char := (dropWS ((dropWS l).reverse)).reverse

/-- The scanning loop of `find_matching_brace` (main.py lines 41-46):
    `l` is the part of the buffer after the opening brace, `pos` the
    absolute index of its head, `count` the current nesting depth. -/
def fmbLoop : List Char → Nat → Nat → Option Nat
  | [], _, _ => none
  | c :: rest, pos, count =>
    let count' := if c = '\x7b' then count + 1 else if c = '\x7d' then count - 1 else count
    if count' = 0 then some pos else fmbLoop rest (pos + 1) count'

/-- `find_matching_brace` (main.py lines 34-48).  `none` models the
    `-1` not-found signal. -/
def find_matching_brace (text : List Char) (start_pos : Nat) : Option Nat :=
  if start_pos < text.length ∧ text.getD start_pos ' ' = '\x7b' then
    fmbLoop (text.drop (start_pos + 1)) (start_pos + 1) 1
  else none

/-- Net brace count of a string: +1 per `{`, -1 per `}` (specification
    notion used to state the Brace Matcher contract). -/
def braceDelta : List Char → Int
  | [] => 0
  | c :: rest => (if c = '\x7b' then 1 else if c = '\x7d' then -1 else 0) + braceDelta rest

theorem braceDelta_take_succ (c : Char) (rest : List Char) (k : Nat) :
    braceDelta ((c :: rest).take (k + 1)) =
      (if c = '\x7b' then 1 else if c = '\x7d' then -1 else 0) + braceDelta (rest.take k) := by
  simp [List.take, braceDelta]

/-- If the running depth, started at `count > 0`, first reaches `0` after
    consuming `k` characters of `l`, the loop answers `pos + (k - 1)`
    (the absolute index of the character that closed the span). -/
theorem fmbLoop_eq_some (l : List Char) : ∀ (pos count k : Nat),
    0 < count → 1 ≤ k → k ≤ l.length →
    (count : Int) + braceDelta (l.take k) = 0 →
    (∀ m, 1 ≤ m → m < k → (count : Int) + braceDelta (l.take m) ≠ 0) →
    fmbLoop l pos count = some (pos + (k - 1)) := by
  induction l with
  | nil =>
    intro pos count k _ hk1 hk2 _ _
    simp at hk2; omega
  | cons c rest ih =>
    intro pos count k hcount hk1 hk2 hzero hmin
    have hstep : ((if c = '\x7b' then count + 1 else if c = '\x7d' then count - 1 else count : Nat) : Int)
        = (count : Int) + (if c = '\x7b' then 1 else if c = '\x7d' then -1 else 0) := by
      by_cases h1 : c = '\x7b' <;> by_cases h2 : c = '\x7d' <;> simp [h1, h2] <;> omega
    by_cases hk : k = 1
    · subst hk
      have h1 : braceDelta ((c :: rest).take 1) =
          (if c = '\x7b' then 1 else if c = '\x7d' then -1 else 0) := by
        simpa [braceDelta] using braceDelta_take_succ c rest 0
      rw [h1] at hzero
      have : (if c = '\x7b' then count + 1 else if c = '\x7d' then count - 1 else count : Nat) = 0 := by
        omega
      simp only [fmbLoop, this]
      simp
    · have hk2' : 2 ≤ k := by omega
      have hne : (count : Int) + braceDelta ((c :: rest).take 1) ≠ 0 := hmin 1 le_rfl (by omega)
      have h1 : braceDelta ((c :: rest).take 1) =
          (if c = '\x7b' then 1 else if c = '\x7d' then -1 else 0) := by
        simpa [braceDelta] using braceDelta_take_succ c rest 0
      rw [h1] at hne
      have hcount' : (if c = '\x7b' then count + 1 else if c = '\x7d' then count - 1 else count : Nat) ≠ 0 := by
        omega
      have hcpos : 0 < (if c = '\x7b' then count + 1 else if c = '\x7d' then count - 1 else count : Nat) := by
        omega
      have hres := ih (pos + 1)
        (if c = '\x7b' then count + 1 else if c = '\x7d' then count - 1 else count) (k - 1)
        hcpos (by omega) (by simp at hk2; omega)
        (by
          have := braceDelta_take_succ c rest (k - 1)
          have hk' : k - 1 + 1 = k := by omega
          rw [hk'] at this
          rw [hstep]; omega)
        (by
          intro m hm1 hm2
          have hmk := hmin (m + 1) (by omega) (by omega)
          have := braceDelta_take_succ c rest m
          rw [hstep]; omega)
      simp only [fmbLoop, hcount', if_false, hres]
      congr 1
      omega

/-- If the running depth never reaches `0` within `l`, the loop answers
    the not-found signal. -/
theorem fmbLoop_eq_none (l : List Char) : ∀ (pos count : Nat),
    0 < count →
    (∀ k, 1 ≤ k → k ≤ l.length → (count : Int) + braceDelta (l.take k) ≠ 0) →
    fmbLoop l pos count = none := by
  induction l with
  | nil => intro pos count _ _; rfl
  | cons c rest ih =>
    intro pos count hcount hever
    have hstep : ((if c = '\x7b' then count + 1 else if c = '\x7d' then count - 1 else count : Nat) : Int)
        = (count : Int) + (if c = '\x7b' then 1 else if c = '\x7d' then -1 else 0) := by
      by_cases h1 : c = '\x7b' <;> by_cases h2 : c = '\x7d' <;> simp [h1, h2] <;> omega
    have hne : (count : Int) + braceDelta ((c :: rest).take 1) ≠ 0 :=
      hever 1 le_rfl (by simp)
    have h1 : braceDelta ((c :: rest).take 1) =
        (if c = '\x7b' then 1 else if c = '\x7d' then -1 else 0) := by
      simpa [braceDelta] using braceDelta_take_succ c rest 0
    rw [h1] at hne
    have hcount' : (if c = '\x7b' then count + 1 else if c = '\x7d' then count - 1 else count : Nat) ≠ 0 := by
      omega
    have hres := ih (pos + 1)
      (if c = '\x7b' then count + 1 else if c = '\x7d' then count - 1 else count)
      (by omega)
      (by
        intro m hm1 hm2
        have hmk := hever (m + 1) (by omega) (by simpa using by omega)
        have := braceDelta_take_succ c rest m
        rw [hstep]; omega)
    simp only [fmbLoop, hcount', if_false, hres]

/-- Any index the loop reports lies within the scanned span and carries a
    closing brace. -/
theorem fmbLoop_some_bound (l : List Char) : ∀ (pos count j : Nat),
    0 < count → fmbLoop l pos count = some j →
    pos ≤ j ∧ j < pos + l.length ∧ l.getD (j - pos) ' ' = '\x7d' := by
  induction l with
  | nil => intro pos count j _ h; simp [fmbLoop] at h
  | cons c rest ih =>
    intro pos count j hcount h
    simp only [fmbLoop] at h
    by_cases h0 : (if c = '\x7b' then count + 1 else if c = '\x7d' then count - 1 else count : Nat) = 0
    · rw [if_pos h0] at h
      have hj : j = pos := by simpa using h.symm
      subst hj
      have hc : c = '\x7d' := by
        by_cases h1 : c = '\x7b'
        · simp [h1] at h0
        · by_cases h2 : c = '\x7d'
          · exact h2
          · simp [h1, h2] at h0; omega
      refine ⟨le_rfl, by simp, ?_⟩
      simp [hc]
    · rw [if_neg h0] at h
      have := ih (pos + 1) _ j (by omega) h
      refine ⟨by omega, by simp; omega, ?_⟩
      have hj : 1 ≤ j - pos := by omega
      have : (c :: rest).getD (j - pos) ' ' = rest.getD (j - pos - 1) ' ' := by
        have hd : j - pos = (j - pos - 1) + 1 := by omega
        rw [hd]; simp [List.getD]
      rw [this]
      have hd : j - pos - 1 = j - (pos + 1) := by omega
      rw [hd]
      exact (ih (pos + 1) _ j (by omega) h).2.2

theorem find_matching_brace_some_bound (text : List Char) (s j : Nat)
    (h : find_matching_brace text s = some j) :
    s < j ∧ j < text.length ∧ text.getD j ' ' = '\x7d' := by
  unfold find_matching_brace at h
  split at h
  · rename_i hcond
    obtain ⟨hs, _⟩ := hcond
    obtain ⟨hb1, hb2, hb3⟩ := fmbLoop_some_bound (text.drop (s + 1)) (s + 1) 1 j (by omega) h
    have hlen : (text.drop (s + 1)).length = text.length - (s + 1) := by simp
    have hjlt : j < text.length := by omega
    refine ⟨by omega, hjlt, ?_⟩
    rw [List.getD_eq_getElem?_getD] at hb3 ⊢
    rw [List.getElem?_drop] at hb3
    have hidx : s + 1 + (j - (s + 1)) = j := by omega
    rwa [hidx] at hb3
  · exact absurd h (by simp)

/-- If `l` starts with the literal `pat`, return the remainder after it
    (the building block for the literal regex searches the program does). -/
def stripLit : List Char → List Char → Option (List Char)
  | [], l => some l
  | _ :: _, [] => none
  | p :: ps, c :: cs => if c = p then stripLit ps cs else none

/-- Split at the first `}`: returns the characters before it and the rest
    after it (the `([^}]*)\}` part of the program's regexes). -/
def splitAtBrace : List Char → Option (List Char × List Char)
  | [] => none
  | c :: rest =>
    if c = '\x7d' then some ([], rest)
    else
      match splitAtBrace rest with
      | some (a, b) => some (c :: a, b)
      | none => none

/-- `re.sub(r'\s+', ' ', ·)`, fuel-indexed: each maximal whitespace run
    becomes one space (main.py line 12). -/
def collapseWSF : Nat → List Char → List Char
  | 0, l => l
  | _ + 1, [] => []
  | fuel + 1, c :: rest =>
    if isSpace c then ' ' :: collapseWSF fuel (rest.dropWhile (fun d => isSpace d))
    else c :: collapseWSF fuel rest

def collapseWS (l : List Char) : List Char := collapseWSF l.length l

/-- `re.sub(cmd ++ '([^}]+)}', openTag ++ '\1' ++ closeTag, ·)`: the
    `\textbf`/`\emph` rewrites of main.py lines 16 and 19.  At each
    position: if the literal command (including its opening brace)
    matches and a closing brace follows a non-empty argument, emit the
    tagged argument and continue after the match; otherwise move one
    character right. -/
def subCmdTagF (cmd openTag closeTag : List Char) : Nat → List Char → List Char
  | 0, l => l
  | _ + 1, [] => []
  | fuel + 1, c :: rest =>
    match stripLit cmd (c :: rest) with
    | some after =>
      match splitAtBrace after with
      | some (content, rest') =>
        if content = [] then c :: subCmdTagF cmd openTag closeTag fuel rest
        else openTag ++ content ++ closeTag ++ subCmdTagF cmd openTag closeTag fuel rest'
      | none => c :: subCmdTagF cmd openTag closeTag fuel rest
    | none => c :: subCmdTagF cmd openTag closeTag fuel rest

def subCmdTag (cmd openTag closeTag l : List Char) : List Char :=
  subCmdTagF cmd openTag closeTag l.length l

/-- Literal, non-overlapping `re.sub(pat, rep, ·)` (the `\dots` and
    `\ldots` rewrites, main.py lines 25-26). -/
def subLitF (pat rep : List Char) : Nat → List Char → List Char
  | 0, l => l
  | _ + 1, [] => []
  | fuel + 1, c :: rest =>
    match stripLit pat (c :: rest) with
    | some after => rep ++ subLitF pat rep fuel after
    | none => c :: subLitF pat rep fuel rest

def subLit (pat rep l : List Char) : List Char := subLitF pat rep l.length l

/-- `re.sub(r'\\([a-zA-Z]+)', r'\1', ·)` (main.py line 29): a backslash
    immediately followed by a maximal non-empty letter run is replaced by
    the letters alone. -/
def subSlashWordF : Nat → List Char → List Char
  | 0, l => l
  | _ + 1, [] => []
  | fuel + 1, c :: rest =>
    if c = '\\' then
      match rest.takeWhile (fun d => isAsciiAlpha d) with
      | [] => c :: subSlashWordF fuel rest
      | w => w ++ subSlashWordF fuel (rest.dropWhile (fun d => isAsciiAlpha d))
    else c :: subSlashWordF fuel rest

def subSlashWord (l : List Char) : List Char := subSlashWordF l.length l

/-- `clean_latex_text` (main.py lines 7-31): collapse whitespace, rewrite
    bold and italic markup to HTML tags, replace the two ellipsis
    commands, strip the escape backslash from remaining word-commands,
    and trim. -/
def clean_latex_text (text : List Char) : List Char :=
  if text = [] then []
  else
    let t1 := collapseWS (stripWS text)
    let t2 := subCmdTag "\\textbf\x7b".data "<b>".data "</b>".data t1
    let t3 := subCmdTag "\\emph\x7b".data "<i>".data "</i>".data t2
    let t4 := subLit "\\dots".data "...".data t3
    let t5 := subLit "\\ldots".data "...".data t4
    stripWS (subSlashWord t5)

/-- One extracted flashcard record: a (name, description) pair. -/
structure Entry where
  name : List Char
  description : List Char
deriving DecidableEq

/-- Index of the first occurrence of `c` in `l`. -/
def findCharIn : List Char → Char → Option Nat
  | [], _ => none
  | a :: rest, c => if a = c then some 0 else (findCharIn rest c).map (· + 1)

/-- Python `text.find(c, s)`: first index `≥ s` holding `c`, as an Option. -/
def findCharFrom (text : List Char) (c : Char) (s : Nat) : Option Nat :=
  (findCharIn (text.drop s) c).map (· + s)

/-- Index of the first occurrence of the literal `pat`
    (Python `re.search` with a literal pattern). -/
def findLitIdx (pat : List Char) : List Char → Option Nat
  | [] => if pat = [] then some 0 else none
  | c :: rest =>
    match stripLit pat (c :: rest) with
    | some _ => some 0
    | none => (findLitIdx pat rest).map (· + 1)

/-- Attempt the pattern `name\s*=\s*([^,}]+)` (second alternative of the
    name regex, main.py line 91) at the head, `r3` being the text after
    the `=`.  The greedy `\s*` backs off one character when the character
    class would otherwise have nothing to take. -/
def matchAlt2 (r3 : List Char) : Option (List Char) :=
  let k := (r3.takeWhile (fun d => isSpace d)).length
  let rest := r3.drop k
  match rest with
  | c :: _ =>
    if c = ',' ∨ c = '\x7d' then
      if 0 < k then some [r3.getD (k - 1) ' '] else none
    else some (rest.takeWhile (fun d => ¬(d = ',' ∨ d = '\x7d')))
  | [] => if 0 < k then some [r3.getD (k - 1) ' '] else none

/-- Attempt `name\s*=\s*\{([^}]*)\}|name\s*=\s*([^,}]+)` at the head of
    `l`, returning the captured group (first alternative preferred). -/
def matchNameAt (l : List Char) : Option (List Char) :=
  match stripLit "name".data l with
  | none => none
  | some r1 =>
    match r1.dropWhile (fun d => isSpace d) with
    | '=' :: r3 =>
      let r4 := r3.dropWhile (fun d => isSpace d)
      match r4 with
      | '\x7b' :: r5 =>
        match splitAtBrace r5 with
        | some (g, _) => some g
        | none => matchAlt2 r3
      | _ => matchAlt2 r3
    | _ => none

/-- `re.search` of the name regex over `params`: leftmost position wins. -/
def searchName : List Char → Option (List Char)
  | [] => none
  | c :: rest =>
    match matchNameAt (c :: rest) with
    | some g => some g
    | none => searchName rest

/-- Attempt `description\s*=\s*\{` at the head of `l`; on success return
    the offset of the opening brace from the head (main.py lines 99-104:
    `desc_match.end() - 1`). -/
def matchDescAt (l : List Char) : Option Nat :=
  match stripLit "description".data l with
  | none => none
  | some r1 =>
    let k1 := (r1.takeWhile (fun d => isSpace d)).length
    match r1.drop k1 with
    | '=' :: r3 =>
      let k2 := (r3.takeWhile (fun d => isSpace d)).length
      match r3.drop k2 with
      | '\x7b' :: _ => some (11 + k1 + 1 + k2)
      | _ => none
    | _ => none

/-- `re.search` of the description-marker regex: index of the opening
    brace of the leftmost `description={`. -/
def searchDescIdx : List Char → Option Nat
  | [] => none
  | c :: rest =>
    match matchDescAt (c :: rest) with
    | some off => some off
    | none => (searchDescIdx rest).map (· + 1)

/-- The description value of a parameter block (main.py lines 98-107):
    find `description={`, match its brace, strip the enclosed text. -/
def findDescVal (params : List Char) : Option (List Char) :=
  match searchDescIdx params with
  | none => none
  | some ds =>
    match find_matching_brace params ds with
    | none => none
    | some de => some (stripWS (slice params (ds + 1) de))

/-- The body of one glossary-loop iteration after the parameter block has
    been isolated (main.py lines 90-121): resolve the name (falling back
    to the key), resolve the description, and emit a cleaned entry only
    when both are non-empty. -/
def glossEntryFromParams (key params : List Char) : Option Entry :=
  let name :=
    match searchName params with
    | some raw => if stripWS raw = [] then key else stripWS raw
    | none => key
  match findDescVal params with
  | some d =>
    if name ≠ [] ∧ d ≠ [] then
      some ⟨clean_latex_text name, clean_latex_text d⟩
    else none
  | none => none

/-- The scan loop of `parse_glossary_entries` (main.py lines 57-124),
    fuel-indexed; `pos` is the current scan position. -/
def glossLoopF (text : List Char) : Nat → Nat → List Entry
  | 0, _ => []
  | fuel + 1, pos =>
    match findLitIdx "\\newglossaryentry".data (text.drop pos) with
    | none => []
    | some i =>
      let s := pos + i
      let p := s + 17
      match findCharFrom text '\x7b' s with
      | none => glossLoopF text fuel p
      | some fb =>
        match find_matching_brace text fb with
        | none => glossLoopF text fuel p
        | some keyEnd =>
          let key := stripWS (slice text (fb + 1) keyEnd)
          match findCharFrom text '\x7b' (keyEnd + 1) with
          | none => glossLoopF text fuel p
          | some sb =>
            match find_matching_brace text sb with
            | none => glossLoopF text fuel p
            | some paramsEnd =>
              let params := slice text (sb + 1) paramsEnd
              match glossEntryFromParams key params with
              | some e => e :: glossLoopF text fuel (paramsEnd + 1)
              | none => glossLoopF text fuel (paramsEnd + 1)

/-- `parse_glossary_entries` (main.py lines 51-126). -/
def parse_glossary_entries (text : List Char) : List Entry :=
  glossLoopF text (text.length + 1) 0

/-- The scan loop of `parse_acronym_entries` (main.py lines 135-191),
    fuel-indexed.  The key (first group) is located but discarded. -/
def acroLoopF (text : List Char) : Nat → Nat → List Entry
  | 0, _ => []
  | fuel + 1, pos =>
    match findLitIdx "\\newacronym".data (text.drop pos) with
    | none => []
    | some i =>
      let s := pos + i
      let p := s + 11
      match findCharFrom text '\x7b' s with
      | none => acroLoopF text fuel p
      | some fb =>
        match find_matching_brace text fb with
        | none => acroLoopF text fuel p
        | some keyEnd =>
          match findCharFrom text '\x7b' (keyEnd + 1) with
          | none => acroLoopF text fuel p
          | some sb =>
            match find_matching_brace text sb with
            | none => acroLoopF text fuel p
            | some shortEnd =>
              let short_form := stripWS (slice text (sb + 1) shortEnd)
              match findCharFrom text '\x7b' (shortEnd + 1) with
              | none => acroLoopF text fuel p
              | some tb =>
                match find_matching_brace text tb with
                | none => acroLoopF text fuel p
                | some longEnd =>
                  let long_form := stripWS (slice text (tb + 1) longEnd)
                  let sf := clean_latex_text short_form
                  let lf := clean_latex_text long_form
                  (if sf ≠ [] ∧ lf ≠ [] then [Entry.mk sf lf] else [])
                    ++ acroLoopF text fuel (longEnd + 1)

/-- `parse_acronym_entries` (main.py lines 129-193). -/
def parse_acronym_entries (text : List Char) : List Entry :=
  acroLoopF text (text.length + 1) 0

/-- `parse_all_entries` (main.py lines 196-200): glossary entries first,
    then acronym entries. -/
def parse_all_entries (text : List Char) : List Entry :=
  parse_glossary_entries text ++ parse_acronym_entries text

/-- Python `csv.writer` default-dialect minimal quoting: a field is
    quoted iff it contains the delimiter, the quote character, or a
    line-terminator character. -/
def needsQuote (f : List Char) : Bool :=
  f.any (fun c => c = ',' || c = '"' || c = '\r' || c = '\n')

/-- Double every quote character (the writer's escape rule). -/
def escQuotes : List Char → List Char
  | [] => []
  | c :: rest => if c = '"' then '"' :: '"' :: escQuotes rest else c :: escQuotes rest

/-- Serialize one field per the writer's dialect. -/
def encodeField (f : List Char) : List Char :=
  if needsQuote f then '"' :: (escQuotes f ++ ['"']) else f

/-- One output row of `write_anki_csv` (main.py line 209): the two fields
    comma-separated, terminated by the dialect's `\r\n`. -/
def encodeRow (e : Entry) : List Char :=
  encodeField e.name ++ ',' :: encodeField e.description ++ ['\r', '\n']

/-- `write_anki_csv` (main.py lines 203-209), as the text it writes. -/
def write_anki_csv (entries : List Entry) : List Char :=
  (entries.map encodeRow).flatten

/-- Modelled from the spec: the repository ships no CSV reader, so the
    "read back" direction of the round-trip property (spec §8) is modelled
    from the spec's words: standard RFC-4180 quoting, two columns per
    record.  Quoted-field body: a doubled quote is a literal quote, a
    single quote closes the field. -/
def readQuoted : List Char → Option (List Char × List Char)
  | [] => none
  | c :: rest =>
    if c = '"' then
      match rest with
      | [] => some ([], [])
      | d :: rest2 =>
        if d = '"' then
          match readQuoted rest2 with
          | some (f, r) => some ('"' :: f, r)
          | none => none
        else some ([], d :: rest2)
    else
      match readQuoted rest with
      | some (f, r) => some (c :: f, r)
      | none => none

/-- Modelled from the spec: unquoted-field body, running to the next
    delimiter or record terminator. -/
def readRaw : List Char → List Char × List Char
  | [] => ([], [])
  | c :: rest =>
    if c = ',' ∨ c = '\r' then ([], c :: rest)
    else
      let (f, r) := readRaw rest
      (c :: f, r)

/-- Modelled from the spec: one field, quoted or raw. -/
def readField (l : List Char) : Option (List Char × List Char) :=
  match l with
  | [] => some ([], [])
  | c :: rest => if c = '"' then readQuoted rest else some (readRaw (c :: rest))

/-- Modelled from the spec: the two-column record reader, fuel-indexed;
    every record is `field , field \r\n`. -/
def readRowsF : Nat → List Char → Option (List (List Char × List Char))
  | 0, l => if l = [] then some [] else none
  | fuel + 1, l =>
    if l = [] then some [] else
    match readField l with
    | none => none
    | some (f1, r1) =>
      match r1 with
      | ',' :: r2 =>
        match readField r2 with
        | none => none
        | some (f2, r3) =>
          match r3 with
          | '\r' :: '\n' :: r4 =>
            match readRowsF fuel r4 with
            | some rows => some ((f1, f2) :: rows)
            | none => none
          | _ => none
      | _ => none

/-- Modelled from the spec: parse a whole delimited file back. -/
def read_anki_csv (l : List Char) : Option (List (List Char × List Char)) :=
  readRowsF (l.length + 1) l

/-- C1: Brace Matcher contract.  If the start index points at `{` and the
    depth scan (depth 1 at the opening brace, +1 per `{`, -1 per `}`)
    first reaches depth 0 after `k` further characters, then
    `find_matching_brace` returns the index `s + k` of that depth-matched
    closing brace, that character is `}`, and the substring from the given
    index through the result is brace-balanced.  If the index does not
    point at an opening brace, or the buffer ends before the depth reaches
    0, the result is the not-found signal (and, being a total function, no
    exception is raised).  For nested braces `{{}}` at index 0 the result
    is 3, not 1. -/
theorem find_matching_brace_contract (text : List Char) (s : Nat) :
    (¬ (s < text.length ∧ text.getD s ' ' = '\x7b') → find_matching_brace text s = none)
    ∧ (∀ k, s < text.length → text.getD s ' ' = '\x7b' →
        1 ≤ k → k ≤ (text.drop (s + 1)).length →
        (1 : Int) + braceDelta ((text.drop (s + 1)).take k) = 0 →
        (∀ m, 1 ≤ m → m < k → (1 : Int) + braceDelta ((text.drop (s + 1)).take m) ≠ 0) →
        find_matching_brace text s = some (s + k)
          ∧ text.getD (s + k) ' ' = '\x7d'
          ∧ braceDelta ((text.drop s).take (k + 1)) = 0)
    ∧ (s < text.length → text.getD s ' ' = '\x7b' →
        (∀ k, 1 ≤ k → k ≤ (text.drop (s + 1)).length →
          (1 : Int) + braceDelta ((text.drop (s + 1)).take k) ≠ 0) →
        find_matching_brace text s = none)
    ∧ find_matching_brace "\x7b\x7b\x7d\x7d".data 0 = some 3
    ∧ find_matching_brace "\x7babc".data 0 = none
    ∧ find_matching_brace "a\x7db".data 0 = none := by
  refine ⟨?_, ?_, ?_, by decide, by decide, by decide⟩
  · intro hnot
    unfold find_matching_brace
    rw [if_neg hnot]
  · intro k hs hb hk1 hk2 hzero hmin
    have heq : find_matching_brace text s = some (s + k) := by
      unfold find_matching_brace
      rw [if_pos ⟨hs, hb⟩]
      rw [fmbLoop_eq_some (text.drop (s + 1)) (s + 1) 1 k (by omega) hk1 hk2
        (by exact_mod_cast hzero) (by intro m h1 h2; exact_mod_cast hmin m h1 h2)]
      congr 1
      omega
    refine ⟨heq, (find_matching_brace_some_bound text s (s + k) heq).2.2, ?_⟩
    have hdrop : text.drop s = text[s] :: text.drop (s + 1) := List.drop_eq_getElem_cons hs
    have hchar : text[s] = '\x7b' := by
      rw [List.getD_eq_getElem?_getD, List.getElem?_eq_getElem hs] at hb
      simpa using hb
    rw [hdrop, hchar, braceDelta_take_succ]
    simp only [if_pos rfl]
    exact hzero
  · intro hs hb hnever
    unfold find_matching_brace
    rw [if_pos ⟨hs, hb⟩]
    exact fmbLoop_eq_none (text.drop (s + 1)) (s + 1) 1 (by omega)
      (by intro m h1 h2; exact_mod_cast hnever m h1 h2)

/-- Witness for C1 at the nested input `{{}}` with start index 0. -/
theorem find_matching_brace_contract_witness :
    find_matching_brace "\x7b\x7b\x7d\x7d".data 0 = some 3
      ∧ "\x7b\x7b\x7d\x7d".data.getD 3 ' ' = '\x7d'
      ∧ braceDelta (("\x7b\x7b\x7d\x7d".data.drop 0).take 4) = 0 := by
  have h := (find_matching_brace_contract "\x7b\x7b\x7d\x7d".data 0).2.1 3
    (by decide) (by decide) (by decide) (by decide) (by decide)
    (by intro m h1 h2; interval_cases m <;> decide)
  simpa using h

/-- No two adjacent characters are both whitespace. -/
abbrev wsRel (a b : Char) : Prop := ¬(isSpace a = true ∧ isSpace b = true)

/-- Invariant the normalizer establishes everywhere but at the edges:
    whitespace only as plain spaces, never two in a row. -/
def okWS (l : List Char) : Prop :=
  (∀ c ∈ l, isSpace c = true → c = ' ') ∧ l.Chain' wsRel

/-- The shape of a fully normalized field: no newline or tab, every
    whitespace character a single plain space, no whitespace run of
    length two, and no leading or trailing whitespace. -/
def cleanField (l : List Char) : Prop :=
  '\n' ∉ l ∧ '\t' ∉ l
    ∧ (∀ c ∈ l, isSpace c = true → c = ' ')
    ∧ l.Chain' wsRel
    ∧ isSpace (l.headD 'x') = false
    ∧ isSpace (l.getLastD 'x') = false

theorem okWS_nil : okWS [] := ⟨by simp, by simp⟩

theorem chain'_middle {s m t : List Char} (h : List.Chain' wsRel (s ++ m ++ t)) :
    List.Chain' wsRel m :=
  (List.chain'_append.mp ((List.chain'_append.mp h).1)).2.1

theorem okWS_mono {l l' : List Char} (h : okWS l) (hinf : l' <:+: l) : okWS l' := by
  obtain ⟨s, t, hst⟩ := hinf
  subst hst
  exact ⟨fun c hc hs => h.1 c (by simp [hc]) hs, chain'_middle h.2⟩

theorem okWS_of_ns {l : List Char} (h : ∀ c ∈ l, isSpace c = false) : okWS l := by
  constructor
  · intro c hc hs
    rw [h c hc] at hs
    cases hs
  · induction l with
    | nil => simp
    | cons c rest ih =>
      rw [List.chain'_cons']
      refine ⟨?_, ih (fun d hd => h d (by simp [hd]))⟩
      intro y _ hcon
      rw [h c (by simp)] at hcon
      cases hcon.1

theorem okWS_append {x y : List Char} (hx : okWS x) (hy : okWS y)
    (hbound : ∀ a ∈ x.getLast?, ∀ b ∈ y.head?, wsRel a b) : okWS (x ++ y) := by
  constructor
  · intro c hc hs
    rcases List.mem_append.mp hc with h1 | h1
    · exact hx.1 c h1 hs
    · exact hy.1 c h1 hs
  · exact List.chain'_append.mpr ⟨hx.2, hy.2, hbound⟩

theorem getLast_ns {l : List Char} (h : ∀ c ∈ l, isSpace c = false) :
    ∀ a ∈ l.getLast?, isSpace a = false := by
  intro a ha
  cases hl : l.getLast? with
  | none => rw [hl] at ha; cases ha
  | some b =>
    rw [hl] at ha
    have hab : b = a := by simpa using ha
    subst hab
    exact h b (List.mem_of_mem_getLast? (by rw [hl]; rfl))

theorem okWS_reverse {l : List Char} (h : okWS l) : okWS l.reverse := by
  constructor
  · intro c hc hs
    exact h.1 c (List.mem_reverse.mp hc) hs
  · rw [List.chain'_reverse]
    exact h.2.imp (fun a b hab => by
      intro hcon
      exact hab ⟨hcon.2, hcon.1⟩)

theorem dropWS_suffix : ∀ (l : List Char), dropWS l <:+ l := by
  intro l
  induction l with
  | nil => exact List.suffix_refl []
  | cons c rest ih =>
    by_cases hc : isSpace c = true
    · simp only [dropWS, if_pos hc]
      exact ih.trans (List.suffix_cons c rest)
    · simp only [dropWS, if_neg hc]
      exact List.suffix_refl _

theorem dropWS_head_ns : ∀ (l : List Char) (y : Char),
    (dropWS l).head? = some y → isSpace y = false := by
  intro l
  induction l with
  | nil => intro y h; cases h
  | cons c rest ih =>
    intro y h
    by_cases hc : isSpace c = true
    · rw [dropWS, if_pos hc] at h
      exact ih y h
    · rw [dropWS, if_neg hc] at h
      have : c = y := by simpa using h
      subst this
      simpa using hc

theorem dropWS_okWS {l : List Char} (h : okWS l) : okWS (dropWS l) :=
  okWS_mono h (dropWS_suffix l).isInfix

theorem stripWS_okWS {l : List Char} (h : okWS l) : okWS (stripWS l) :=
  okWS_reverse (dropWS_okWS (okWS_reverse (dropWS_okWS h)))

theorem alpha_not_space (c : Char) (h : isAsciiAlpha c = true) : isSpace c = false := by
  have h' : ('a' ≤ c ∧ c ≤ 'z') ∨ ('A' ≤ c ∧ c ≤ 'Z') := by
    simpa [isAsciiAlpha, Bool.and_eq_true, Bool.or_eq_true, decide_eq_true_eq] using h
  have hne : c ≠ ' ' ∧ c ≠ '\t' ∧ c ≠ '\n' ∧ c ≠ '\r' ∧ c ≠ '\x0b' ∧ c ≠ '\x0c' := by
    rcases h' with ⟨h1, h2⟩ | ⟨h1, h2⟩ <;>
      refine ⟨?_, ?_, ?_, ?_, ?_, ?_⟩ <;>
        (intro he; subst he; revert h1 h2; decide)
  simp [isSpace, hne.1, hne.2.1, hne.2.2.1, hne.2.2.2.1, hne.2.2.2.2.1, hne.2.2.2.2.2]

theorem head_dropWhile_ns (p : Char → Bool) : ∀ (l : List Char) (c : Char),
    (l.dropWhile p).head? = some c → p c = false := by
  intro l
  induction l with
  | nil => intro c h; cases h
  | cons a rest ih =>
    intro c h
    rw [List.dropWhile_cons] at h
    split at h
    · exact ih c h
    · rename_i hp
      have : a = c := by simpa using h
      subst this
      simpa using hp

theorem collapseWSF_head_ns : ∀ (f : Nat) (l : List Char) (y : Char),
    (∀ c, l.head? = some c → isSpace c = false) →
    (collapseWSF f l).head? = some y → l.head? = some y := by
  intro f l y hns
  cases f with
  | zero => exact fun h => h
  | succ g =>
    cases l with
    | nil => exact fun h => h
    | cons c rest =>
      intro h
      by_cases hc : isSpace c = true
      · rw [hns c rfl] at hc
        cases hc
      · rw [collapseWSF, if_neg hc] at h
        have : c = y := by simpa using h
        subst this
        rfl

theorem collapseWSF_ok : ∀ (f : Nat) (l : List Char), l.length ≤ f →
    okWS (collapseWSF f l) := by
  intro f
  induction f with
  | zero =>
    intro l h
    have : l = [] := List.length_eq_zero.mp (by omega)
    subst this
    exact okWS_nil
  | succ g ih =>
    intro l h
    cases l with
    | nil => exact okWS_nil
    | cons c rest =>
      have hlr : rest.length ≤ g := by simpa using h
      by_cases hc : isSpace c = true
      · simp only [collapseWSF, if_pos hc]
        have hm : (rest.dropWhile (fun d => isSpace d)).length ≤ g :=
          le_trans (List.dropWhile_suffix _).length_le hlr
        have hok := ih _ hm
        constructor
        · intro x hx hsx
          rcases List.mem_cons.mp hx with h1 | h1
          · exact h1
          · exact hok.1 x h1 hsx
        · rw [List.chain'_cons']
          refine ⟨?_, hok.2⟩
          intro y hy
          have hy' : (collapseWSF g (rest.dropWhile (fun d => isSpace d))).head? = some y := hy
          have hl : (rest.dropWhile (fun d => isSpace d)).head? = some y :=
            collapseWSF_head_ns g _ y
              (fun d hd => head_dropWhile_ns _ rest d hd) hy'
          have hns : isSpace y = false := head_dropWhile_ns (fun d => isSpace d) rest y hl
          intro hcon
          rw [hns] at hcon
          cases hcon.2
      · simp only [collapseWSF, if_neg hc]
        have hok := ih rest hlr
        constructor
        · intro x hx hsx
          rcases List.mem_cons.mp hx with h1 | h1
          · subst h1; rw [hsx] at hc; cases hc rfl
          · exact hok.1 x h1 hsx
        · rw [List.chain'_cons']
          refine ⟨?_, hok.2⟩
          intro y _ hcon
          exact hc hcon.1

theorem stripLit_self : ∀ (p r : List Char), stripLit p (p ++ r) = some r := by
  intro p
  induction p with
  | nil => intro r; rfl
  | cons a ps ih => intro r; simp [stripLit, ih r]

theorem stripLit_cons_ne (p : Char) (ps : List Char) (c : Char) (cs : List Char)
    (h : c ≠ p) : stripLit (p :: ps) (c :: cs) = none := by
  simp [stripLit, h]

theorem stripLit_length : ∀ (p l r : List Char), stripLit p l = some r →
    l.length = p.length + r.length := by
  intro p
  induction p with
  | nil => intro l r h; simp only [stripLit] at h; simp [← Option.some_inj.mp h]
  | cons a ps ih =>
    intro l r h
    cases l with
    | nil => cases h
    | cons c cs =>
      simp only [stripLit] at h
      split at h
      · have := ih cs r h
        simp [this]
        omega
      · cases h

theorem splitAtBrace_eq : ∀ (l a b : List Char), splitAtBrace l = some (a, b) →
    l = a ++ '\x7d' :: b ∧ '\x7d' ∉ a := by
  intro l
  induction l with
  | nil => intro a b h; cases h
  | cons c rest ih =>
    intro a b h
    simp only [splitAtBrace] at h
    split at h
    · rename_i hc
      have heq := Option.some_inj.mp h
      have ha : a = [] := (congrArg Prod.fst heq).symm
      have hb : b = rest := (congrArg Prod.snd heq).symm
      subst ha; subst hb; subst hc
      simp
    · rename_i hc
      cases hs : splitAtBrace rest with
      | none => rw [hs] at h; cases h
      | some ab =>
        obtain ⟨a1, b1⟩ := ab
        rw [hs] at h
        have heq := Option.some_inj.mp h
        have ha : c :: a1 = a := congrArg Prod.fst heq
        have hb : b1 = b := congrArg Prod.snd heq
        subst ha; subst hb
        obtain ⟨hrest, hmem⟩ := ih a1 b1 hs
        subst hrest
        refine ⟨rfl, ?_⟩
        intro hmem2
        rcases List.mem_cons.mp hmem2 with h3 | h3
        · exact hc h3.symm
        · exact hmem h3

theorem splitAtBrace_append : ∀ (a b : List Char), '\x7d' ∉ a →
    splitAtBrace (a ++ '\x7d' :: b) = some (a, b) := by
  intro a
  induction a with
  | nil => intro b _; simp [splitAtBrace]
  | cons c a' ih =>
    intro b h
    have hc : ¬ c = '\x7d' := by
      intro hcc; exact h (by simp [hcc])
    have ha : '\x7d' ∉ a' := by
      intro hmm; exact h (by simp [hmm])
    simp [splitAtBrace, hc, ih b ha]

/-- The tag-substitution scanner is insensitive to its fuel once the fuel
    covers the list. -/
theorem subCmdTagF_fuel (cmd o cl : List Char) : ∀ f1 f2 l,
    l.length ≤ f1 → l.length ≤ f2 →
    subCmdTagF cmd o cl f1 l = subCmdTagF cmd o cl f2 l := by
  intro f1
  induction f1 with
  | zero =>
    intro f2 l h1 _
    have : l = [] := List.length_eq_zero.mp (by omega)
    subst this
    cases f2 <;> rfl
  | succ f1 ih =>
    intro f2 l h1 h2
    cases f2 with
    | zero =>
      have : l = [] := List.length_eq_zero.mp (by omega)
      subst this
      rfl
    | succ g =>
      cases l with
      | nil => rfl
      | cons c rest =>
        have h1' : rest.length + 1 ≤ f1 + 1 := by simpa using h1
        have h2' : rest.length + 1 ≤ g + 1 := by simpa using h2
        simp only [subCmdTagF]
        cases hS : stripLit cmd (c :: rest) with
        | none =>
          simp only [hS]
          rw [ih g rest (by omega) (by omega)]
        | some after =>
          simp only [hS]
          have hlen : rest.length + 1 = cmd.length + after.length := by
            simpa using stripLit_length cmd (c :: rest) after hS
          cases hB : splitAtBrace after with
          | none =>
            simp only [hB]
            rw [ih g rest (by omega) (by omega)]
          | some ab =>
            obtain ⟨content, rest'⟩ := ab
            simp only [hB]
            have hsp := (splitAtBrace_eq after content rest' hB).1
            have hlen2 : after.length = content.length + 1 + rest'.length := by
              rw [hsp]; simp; omega
            split
            · rw [ih g rest (by omega) (by omega)]
            · rw [ih g rest' (by omega) (by omega)]

theorem wsRel_of_right_ns {a b : Char} (h : isSpace b = false) : wsRel a b := by
  intro hcon
  rw [h] at hcon
  cases hcon.2

theorem wsRel_of_left_ns {a b : Char} (h : isSpace a = false) : wsRel a b := by
  intro hcon
  rw [h] at hcon
  cases hcon.1

theorem stripLit_eq_append : ∀ (p l r : List Char), stripLit p l = some r → l = p ++ r := by
  intro p
  induction p with
  | nil =>
    intro l r h
    simp only [stripLit] at h
    simp [← Option.some_inj.mp h]
  | cons a ps ih =>
    intro l r h
    cases l with
    | nil => cases h
    | cons c cs =>
      simp only [stripLit] at h
      split at h
      · rename_i hca
        rw [hca]
        simp [ih cs r h]
      · cases h

theorem subCmdTagF_headq (cmd o cl : List Char) (honc : o ≠ [])
    (ho : ∀ c ∈ o, isSpace c = false) :
    ∀ (f : Nat) (l : List Char) (y : Char),
    (subCmdTagF cmd o cl f l).head? = some y →
    l.head? = some y ∨ isSpace y = false := by
  intro f l y
  cases f with
  | zero => exact fun h => Or.inl h
  | succ g =>
    cases l with
    | nil => exact fun h => Or.inl h
    | cons c rest =>
      simp only [subCmdTagF]
      cases hS : stripLit cmd (c :: rest) with
      | none => simp only [hS]; intro h; exact Or.inl h
      | some after =>
        simp only [hS]
        cases hB : splitAtBrace after with
        | none => simp only [hB]; intro h; exact Or.inl h
        | some pr =>
          obtain ⟨content, rest'⟩ := pr
          simp only [hB]
          by_cases hcc : content = []
          · rw [if_pos hcc]; intro h; exact Or.inl h
          · rw [if_neg hcc]
            intro h
            cases o with
            | nil => exact absurd rfl honc
            | cons e o' =>
              right
              have he : e = y := by simpa using h
              subst he
              exact ho e (by simp)

/-- The tag rewrite preserves the whitespace invariant: the tags are
    whitespace-free and the copied argument inherits the input's
    invariant. -/
theorem subCmdTagF_ok (cmd o cl : List Char) (honc : o ≠ []) (hclnc : cl ≠ [])
    (ho : ∀ c ∈ o, isSpace c = false) (hcl : ∀ c ∈ cl, isSpace c = false) :
    ∀ (f : Nat) (l : List Char), l.length ≤ f → okWS l →
    okWS (subCmdTagF cmd o cl f l) := by
  intro f
  induction f with
  | zero => intro l _ hok; exact hok
  | succ g ih =>
    intro l h hok
    cases l with
    | nil => exact okWS_nil
    | cons c rest =>
      have hlr : rest.length ≤ g := by simpa using h
      have hokr : okWS rest := okWS_mono hok ⟨[c], [], by simp⟩
      have hcons : okWS (c :: subCmdTagF cmd o cl g rest) := by
        constructor
        · intro x hx hsx
          rcases List.mem_cons.mp hx with h1 | h1
          · exact hok.1 x (by simp [h1]) hsx
          · exact (ih rest hlr hokr).1 x h1 hsx
        · rw [List.chain'_cons']
          refine ⟨?_, (ih rest hlr hokr).2⟩
          intro y hy
          by_cases hcs : isSpace c = true
          · have hy' : (subCmdTagF cmd o cl g rest).head? = some y := hy
            rcases subCmdTagF_headq cmd o cl honc ho g rest y hy' with hh | hh
            · exact (List.chain'_cons'.mp hok.2).1 y hh
            · exact wsRel_of_right_ns hh
          · exact wsRel_of_left_ns (by simpa using hcs)
      simp only [subCmdTagF]
      cases hS : stripLit cmd (c :: rest) with
      | none => simp only [hS]; exact hcons
      | some after =>
        simp only [hS]
        cases hB : splitAtBrace after with
        | none => simp only [hB]; exact hcons
        | some pr =>
          obtain ⟨content, rest'⟩ := pr
          simp only [hB]
          by_cases hcc : content = []
          · rw [if_pos hcc]; exact hcons
          · rw [if_neg hcc]
            have hdec1 : c :: rest = cmd ++ after := stripLit_eq_append cmd _ after hS
            obtain ⟨hdec2, hnb⟩ := splitAtBrace_eq after content rest' hB
            have hdecomp : c :: rest = cmd ++ content ++ '\x7d' :: rest' := by
              rw [hdec1, hdec2]
              simp [List.append_assoc]
            have hokc : okWS content :=
              okWS_mono hok ⟨cmd, '\x7d' :: rest', by rw [hdecomp]⟩
            have hokr' : okWS rest' :=
              okWS_mono hok ⟨cmd ++ content ++ ['\x7d'], [], by rw [hdecomp]; simp [List.append_assoc]⟩
            have hlen : rest'.length ≤ g := by
              have hcl2 := congrArg List.length hdecomp
              simp [List.length_append] at hcl2 h
              omega
            have hout := ih rest' hlen hokr'
            have hA : okWS (o ++ content) :=
              okWS_append (okWS_of_ns ho) hokc
                (fun a ha _ _ =>
                  wsRel_of_left_ns (ho a (List.mem_of_mem_getLast? ha)))
            have hB2 : okWS ((o ++ content) ++ cl) :=
              okWS_append hA (okWS_of_ns hcl)
                (fun _ _ b hb =>
                  wsRel_of_right_ns (hcl b (List.mem_of_mem_head? hb)))
            refine okWS_append hB2 hout ?_
            intro a ha _ _
            rw [List.getLast?_append_of_ne_nil _ hclnc] at ha
            exact wsRel_of_left_ns (hcl a (List.mem_of_mem_getLast? ha))

theorem subLitF_headq (pat rep : List Char) (hrepnc : rep ≠ [])
    (hrep : ∀ c ∈ rep, isSpace c = false) :
    ∀ (f : Nat) (l : List Char) (y : Char),
    (subLitF pat rep f l).head? = some y →
    l.head? = some y ∨ isSpace y = false := by
  intro f l y
  cases f with
  | zero => exact fun h => Or.inl h
  | succ g =>
    cases l with
    | nil => exact fun h => Or.inl h
    | cons c rest =>
      simp only [subLitF]
      cases hS : stripLit pat (c :: rest) with
      | none => simp only [hS]; intro h; exact Or.inl h
      | some after =>
        simp only [hS]
        intro h
        cases rep with
        | nil => exact absurd rfl hrepnc
        | cons e r' =>
          right
          have he : e = y := by simpa using h
          subst he
          exact hrep e (by simp)

/-- The literal rewrite (ellipsis commands) preserves the whitespace
    invariant. -/
theorem subLitF_ok (pat rep : List Char) (hpat : pat ≠ []) (hrepnc : rep ≠ [])
    (hrep : ∀ c ∈ rep, isSpace c = false) :
    ∀ (f : Nat) (l : List Char), l.length ≤ f → okWS l →
    okWS (subLitF pat rep f l) := by
  intro f
  induction f with
  | zero => intro l _ hok; exact hok
  | succ g ih =>
    intro l h hok
    cases l with
    | nil => exact okWS_nil
    | cons c rest =>
      have hlr : rest.length ≤ g := by simpa using h
      have hokr : okWS rest := okWS_mono hok ⟨[c], [], by simp⟩
      have hcons : okWS (c :: subLitF pat rep g rest) := by
        constructor
        · intro x hx hsx
          rcases List.mem_cons.mp hx with h1 | h1
          · exact hok.1 x (by simp [h1]) hsx
          · exact (ih rest hlr hokr).1 x h1 hsx
        · rw [List.chain'_cons']
          refine ⟨?_, (ih rest hlr hokr).2⟩
          intro y hy
          by_cases hcs : isSpace c = true
          · have hy' : (subLitF pat rep g rest).head? = some y := hy
            rcases subLitF_headq pat rep hrepnc hrep g rest y hy' with hh | hh
            · exact (List.chain'_cons'.mp hok.2).1 y hh
            · exact wsRel_of_right_ns hh
          · exact wsRel_of_left_ns (by simpa using hcs)
      simp only [subLitF]
      cases hS : stripLit pat (c :: rest) with
      | none => simp only [hS]; exact hcons
      | some after =>
        simp only [hS]
        have hdec : c :: rest = pat ++ after := stripLit_eq_append pat _ after hS
        have hoka : okWS after := okWS_mono hok ⟨pat, [], by rw [hdec]; simp⟩
        have hlena : after.length ≤ g := by
          have hcl2 := congrArg List.length hdec
          simp [List.length_append] at hcl2 h
          cases pat with
          | nil => exact absurd rfl hpat
          | cons p ps => simp at hcl2; omega
        refine okWS_append (okWS_of_ns hrep) (ih after hlena hoka) ?_
        intro a ha _ _
        exact wsRel_of_left_ns (hrep a (List.mem_of_mem_getLast? ha))

theorem subSlashWordF_headq :
    ∀ (f : Nat) (l : List Char) (y : Char),
    (subSlashWordF f l).head? = some y →
    l.head? = some y ∨ isSpace y = false := by
  intro f l y
  cases f with
  | zero => exact fun h => Or.inl h
  | succ g =>
    cases l with
    | nil => exact fun h => Or.inl h
    | cons c rest =>
      simp only [subSlashWordF]
      by_cases hc : c = '\\'
      · rw [if_pos hc]
        cases hw : rest.takeWhile (fun d => isAsciiAlpha d) with
        | nil => simp only [hw]; intro h; exact Or.inl h
        | cons e es =>
          simp only [hw]
          intro h
          right
          have he : e = y := by simpa using h
          subst he
          have hmem : e ∈ rest.takeWhile (fun d => isAsciiAlpha d) := by
            rw [hw]; simp
          have : isAsciiAlpha e = true := by
            simpa using List.mem_takeWhile_imp hmem
          exact alpha_not_space e this
      · rw [if_neg hc]; intro h; exact Or.inl h

/-- The backslash-strip rewrite preserves the whitespace invariant. -/
theorem subSlashWordF_ok :
    ∀ (f : Nat) (l : List Char), l.length ≤ f → okWS l →
    okWS (subSlashWordF f l) := by
  intro f
  induction f with
  | zero => intro l _ hok; exact hok
  | succ g ih =>
    intro l h hok
    cases l with
    | nil => exact okWS_nil
    | cons c rest =>
      have hlr : rest.length ≤ g := by simpa using h
      have hokr : okWS rest := okWS_mono hok ⟨[c], [], by simp⟩
      have hcons : okWS (c :: subSlashWordF g rest) := by
        constructor
        · intro x hx hsx
          rcases List.mem_cons.mp hx with h1 | h1
          · exact hok.1 x (by simp [h1]) hsx
          · exact (ih rest hlr hokr).1 x h1 hsx
        · rw [List.chain'_cons']
          refine ⟨?_, (ih rest hlr hokr).2⟩
          intro y hy
          by_cases hcs : isSpace c = true
          · have hy' : (subSlashWordF g rest).head? = some y := hy
            rcases subSlashWordF_headq g rest y hy' with hh | hh
            · exact (List.chain'_cons'.mp hok.2).1 y hh
            · exact wsRel_of_right_ns hh
          · exact wsRel_of_left_ns (by simpa using hcs)
      simp only [subSlashWordF]
      by_cases hc : c = '\\'
      · rw [if_pos hc]
        cases hw : rest.takeWhile (fun d => isAsciiAlpha d) with
        | nil => simp only [hw]; exact hcons
        | cons e es =>
          simp only [hw]
          have hwa : ∀ x ∈ e :: es, isSpace x = false := by
            intro x hx
            have hmem : x ∈ rest.takeWhile (fun d => isAsciiAlpha d) := by
              rw [hw]; exact hx
            exact alpha_not_space x (by simpa using List.mem_takeWhile_imp hmem)
          have hokd : okWS (rest.dropWhile (fun d => isAsciiAlpha d)) :=
            okWS_mono hokr (List.dropWhile_suffix _).isInfix
          have hlend : (rest.dropWhile (fun d => isAsciiAlpha d)).length ≤ g :=
            le_trans (List.dropWhile_suffix _).length_le hlr
          refine okWS_append (okWS_of_ns hwa) (ih _ hlend hokd) ?_
          intro a ha _ _
          exact wsRel_of_left_ns (hwa a (List.mem_of_mem_getLast? ha))
      · rw [if_neg hc]; exact hcons

theorem stripWS_head_ns (m : List Char) :
    ∀ y, (stripWS m).head? = some y → isSpace y = false := by
  intro y h
  unfold stripWS at h
  rw [List.head?_reverse] at h
  have hne : dropWS ((dropWS m).reverse) ≠ [] := by
    intro hnil
    rw [hnil] at h
    cases h
  obtain ⟨t, ht⟩ := dropWS_suffix ((dropWS m).reverse)
  have h2 : ((dropWS m).reverse).getLast? = some y := by
    rw [← ht, List.getLast?_append_of_ne_nil t hne]
    exact h
  rw [List.getLast?_reverse] at h2
  exact dropWS_head_ns m y h2

theorem stripWS_getLast_ns (m : List Char) :
    ∀ y, (stripWS m).getLast? = some y → isSpace y = false := by
  intro y h
  unfold stripWS at h
  rw [List.getLast?_reverse] at h
  exact dropWS_head_ns _ y h

theorem edge_headD (l : List Char)
    (h : ∀ y, l.head? = some y → isSpace y = false) :
    isSpace (l.headD 'x') = false := by
  cases l with
  | nil => decide
  | cons c rest => exact h c rfl

theorem edge_lastD (l : List Char)
    (h : ∀ y, l.getLast? = some y → isSpace y = false) :
    isSpace (l.getLastD 'x') = false := by
  cases hl : l.getLast? with
  | none => rw [List.getLastD_eq_getLast?, hl]; decide
  | some y => rw [List.getLastD_eq_getLast?, hl]; exact h y hl

/-- The normalizer's output is a fully clean field: the collapse pass
    establishes the single-space invariant, every later pass preserves
    it, and the final strip clears the edges. -/
theorem clean_latex_text_clean (x : List Char) : cleanField (clean_latex_text x) := by
  have key : okWS (clean_latex_text x)
      ∧ (∀ y, (clean_latex_text x).head? = some y → isSpace y = false)
      ∧ (∀ y, (clean_latex_text x).getLast? = some y → isSpace y = false) := by
    unfold clean_latex_text
    by_cases hx : x = []
    · rw [if_pos hx]
      refine ⟨okWS_nil, ?_, ?_⟩
      · intro y h
        simp at h
      · intro y h
        simp at h
    · rw [if_neg hx]
      have h1 : okWS (collapseWS (stripWS x)) := collapseWSF_ok _ _ le_rfl
      have h2 : okWS (subCmdTag "\\textbf\x7b".data "<b>".data "</b>".data
          (collapseWS (stripWS x))) :=
        subCmdTagF_ok _ _ _ (by decide) (by decide) (by decide) (by decide) _ _ le_rfl h1
      have h3 : okWS (subCmdTag "\\emph\x7b".data "<i>".data "</i>".data
          (subCmdTag "\\textbf\x7b".data "<b>".data "</b>".data
            (collapseWS (stripWS x)))) :=
        subCmdTagF_ok _ _ _ (by decide) (by decide) (by decide) (by decide) _ _ le_rfl h2
      have h4 : okWS (subLit "\\dots".data "...".data
          (subCmdTag "\\emph\x7b".data "<i>".data "</i>".data
            (subCmdTag "\\textbf\x7b".data "<b>".data "</b>".data
              (collapseWS (stripWS x))))) :=
        subLitF_ok _ _ (by decide) (by decide) (by decide) _ _ le_rfl h3
      have h5 : okWS (subLit "\\ldots".data "...".data
          (subLit "\\dots".data "...".data
            (subCmdTag "\\emph\x7b".data "<i>".data "</i>".data
              (subCmdTag "\\textbf\x7b".data "<b>".data "</b>".data
                (collapseWS (stripWS x)))))) :=
        subLitF_ok _ _ (by decide) (by decide) (by decide) _ _ le_rfl h4
      have h6 : okWS (subSlashWord (subLit "\\ldots".data "...".data
          (subLit "\\dots".data "...".data
            (subCmdTag "\\emph\x7b".data "<i>".data "</i>".data
              (subCmdTag "\\textbf\x7b".data "<b>".data "</b>".data
                (collapseWS (stripWS x))))))) :=
        subSlashWordF_ok _ _ le_rfl h5
      exact ⟨stripWS_okWS h6, stripWS_head_ns _, stripWS_getLast_ns _⟩
  refine ⟨?_, ?_, key.1.1, key.1.2, edge_headD _ key.2.1, edge_lastD _ key.2.2⟩
  · intro hmem
    exact absurd (key.1.1 '\n' hmem (by decide)) (by decide)
  · intro hmem
    exact absurd (key.1.1 '\t' hmem (by decide)) (by decide)

/-- Structure of one rewrite of the tag scanner: scanning
    `pre ++ cmd ++ content ++ '}' ++ post` where `pre` contains no
    character that can start the command, the command's occurrence is
    replaced by the tagged argument — verbatim, without recursive
    processing — and scanning resumes after the consumed closing brace. -/
theorem subCmdTagF_struct (d : Char) (cs o cl : List Char) :
    ∀ (f : Nat) (pre content post : List Char),
    (pre ++ (d :: cs) ++ content ++ '\x7d' :: post).length ≤ f →
    d ∉ pre → '\x7d' ∉ content → content ≠ [] →
    subCmdTagF (d :: cs) o cl f (pre ++ (d :: cs) ++ content ++ '\x7d' :: post)
      = pre ++ o ++ content ++ cl ++ subCmdTag (d :: cs) o cl post := by
  intro f
  induction f with
  | zero =>
    intro pre content post h _ _ _
    exfalso
    simp [List.length_append] at h
  | succ f ih =>
    intro pre content post h hpre hcont hcc
    cases pre with
    | nil =>
      simp only [List.nil_append, List.append_assoc, List.cons_append] at h ⊢
      simp only [subCmdTagF]
      have hS : stripLit (d :: cs) ((d :: cs) ++ (content ++ '\x7d' :: post))
          = some (content ++ '\x7d' :: post) := stripLit_self (d :: cs) _
      simp only [List.cons_append, List.append_assoc] at hS
      simp only [hS]
      have hB : splitAtBrace (content ++ '\x7d' :: post) = some (content, post) :=
        splitAtBrace_append content post hcont
      simp only [hB]
      rw [if_neg hcc]
      have hpost : post.length ≤ f := by
        simp [List.length_append] at h
        omega
      rw [subCmdTagF_fuel (d :: cs) o cl f post.length post hpost le_rfl]
      simp [subCmdTag, List.append_assoc]
    | cons a pre' =>
      have hda : a ≠ d := by
        intro hh
        exact hpre (by simp [hh])
      have hpre' : d ∉ pre' := by
        intro hh
        exact hpre (by simp [hh])
      simp only [List.cons_append, subCmdTagF]
      have key : ∀ rest, stripLit (d :: cs) (a :: rest) = none :=
        fun rest => stripLit_cons_ne d cs a rest hda
      simp only [key]
      have hrec := ih pre' content post (by simp [List.length_append] at h ⊢; omega) hpre' hcont hcc
      simp only [List.append_eq, List.append_assoc, List.cons_append] at hrec ⊢
      rw [hrec]

/-- C7: every occurrence of the bold command wrapping a braced argument
    becomes the bold tag around that argument, and likewise the italic
    command becomes the italic tag, the argument itself being copied
    verbatim (not recursively processed); in particular
    `\textbf{Hi}` → `<b>Hi</b>` and `\emph{x}` → `<i>x</i>` through the
    whole normalizer. -/
theorem markup_rewriting :
    (∀ pre content post, '\\' ∉ pre → '\x7d' ∉ content → content ≠ [] →
      subCmdTag "\\textbf\x7b".data "<b>".data "</b>".data
          (pre ++ "\\textbf\x7b".data ++ content ++ '\x7d' :: post)
        = pre ++ "<b>".data ++ content ++ "</b>".data
          ++ subCmdTag "\\textbf\x7b".data "<b>".data "</b>".data post)
    ∧ (∀ pre content post, '\\' ∉ pre → '\x7d' ∉ content → content ≠ [] →
      subCmdTag "\\emph\x7b".data "<i>".data "</i>".data
          (pre ++ "\\emph\x7b".data ++ content ++ '\x7d' :: post)
        = pre ++ "<i>".data ++ content ++ "</i>".data
          ++ subCmdTag "\\emph\x7b".data "<i>".data "</i>".data post)
    ∧ clean_latex_text "\\textbf\x7bHi\x7d".data = "<b>Hi</b>".data
    ∧ clean_latex_text "\\emph\x7bx\x7d".data = "<i>x</i>".data := by
  refine ⟨?_, ?_, by decide, by decide⟩
  · intro pre content post hpre hcont hcc
    have hcmd : "\\textbf\x7b".data = '\\' :: "textbf\x7b".data := by decide
    rw [hcmd]
    exact subCmdTagF_struct '\\' "textbf\x7b".data "<b>".data "</b>".data
      (pre ++ ('\\' :: "textbf\x7b".data) ++ content ++ '\x7d' :: post).length
      pre content post le_rfl hpre hcont hcc
  · intro pre content post hpre hcont hcc
    have hcmd : "\\emph\x7b".data = '\\' :: "emph\x7b".data := by decide
    rw [hcmd]
    exact subCmdTagF_struct '\\' "emph\x7b".data "<i>".data "</i>".data
      (pre ++ ('\\' :: "emph\x7b".data) ++ content ++ '\x7d' :: post).length
      pre content post le_rfl hpre hcont hcc

/-- Witness for C7 at `\textbf{Hi}` with empty context. -/
theorem markup_rewriting_witness :
    subCmdTag "\\textbf\x7b".data "<b>".data "</b>".data
        ([] ++ "\\textbf\x7b".data ++ "Hi".data ++ '\x7d' :: [])
      = [] ++ "<b>".data ++ "Hi".data ++ "</b>".data
        ++ subCmdTag "\\textbf\x7b".data "<b>".data "</b>".data [] :=
  markup_rewriting.1 [] "Hi".data [] (by decide) (by decide) (by decide)

theorem takeWhile_all_app (p : Char → Bool) : ∀ (w post : List Char),
    (∀ c ∈ w, p c = true) →
    (match post with | [] => True | d :: _ => p d = false) →
    (w ++ post).takeWhile p = w ∧ (w ++ post).dropWhile p = post := by
  intro w
  induction w with
  | nil =>
    intro post _ hpost
    cases post with
    | nil => simp
    | cons d ds =>
      have hd : p d = false := hpost
      simp [List.takeWhile, List.dropWhile, hd]
  | cons e es ih =>
    intro post hall hpost
    have he : p e = true := hall e (by simp)
    have := ih post (fun c hc => hall c (by simp [hc])) hpost
    simp [List.takeWhile, List.dropWhile, he, this.1, this.2]

/-- The backslash-strip scanner is insensitive to its fuel once the fuel
    covers the list. -/
theorem subSlashWordF_fuel : ∀ (f1 f2 : Nat) (l : List Char),
    l.length ≤ f1 → l.length ≤ f2 → subSlashWordF f1 l = subSlashWordF f2 l := by
  intro f1
  induction f1 with
  | zero =>
    intro f2 l h1 _
    have : l = [] := List.length_eq_zero.mp (by omega)
    subst this
    cases f2 <;> rfl
  | succ f1 ih =>
    intro f2 l h1 h2
    cases f2 with
    | zero =>
      have : l = [] := List.length_eq_zero.mp (by omega)
      subst this
      rfl
    | succ g =>
      cases l with
      | nil => rfl
      | cons c rest =>
        have h1' : rest.length ≤ f1 := by simpa using h1
        have h2' : rest.length ≤ g := by simpa using h2
        simp only [subSlashWordF]
        by_cases hc : c = '\\'
        · rw [if_pos hc, if_pos hc]
          cases hw : rest.takeWhile (fun d => isAsciiAlpha d) with
          | nil => simp only [hw]; rw [ih g rest h1' h2']
          | cons e es =>
            simp only [hw]
            have hd : (rest.dropWhile (fun d => isAsciiAlpha d)).length ≤ rest.length :=
              (List.dropWhile_suffix _).length_le
            rw [ih g (rest.dropWhile (fun d => isAsciiAlpha d)) (by omega) (by omega)]
        · rw [if_neg hc, if_neg hc, ih g rest h1' h2']

/-- On input containing no backslash the backslash-strip step is the
    identity: it modifies nothing but escape-marked word-commands. -/
theorem subSlashWordF_no_bs : ∀ (f : Nat) (l : List Char),
    l.length ≤ f → '\\' ∉ l → subSlashWordF f l = l := by
  intro f
  induction f with
  | zero =>
    intro l h1 _
    have : l = [] := List.length_eq_zero.mp (by omega)
    subst this
    rfl
  | succ f ih =>
    intro l h1 hbs
    cases l with
    | nil => rfl
    | cons c rest =>
      have hc : ¬ c = '\\' := by
        intro hh
        exact hbs (by simp [hh])
      have hrest : '\\' ∉ rest := by
        intro hh
        exact hbs (by simp [hh])
      simp only [subSlashWordF, if_neg hc]
      rw [ih rest (by simpa using h1) hrest]

/-- Structure of one rewrite of the backslash-strip scanner: exactly the
    leading backslash of a maximal letter run is removed, everything else
    is copied verbatim. -/
theorem subSlashWordF_struct : ∀ (f : Nat) (pre w post : List Char),
    (pre ++ '\\' :: w ++ post).length ≤ f →
    '\\' ∉ pre → w ≠ [] → (∀ c ∈ w, isAsciiAlpha c = true) →
    (match post with | [] => True | pc :: _ => isAsciiAlpha pc = false) →
    subSlashWordF f (pre ++ '\\' :: w ++ post) = pre ++ w ++ subSlashWord post := by
  intro f
  induction f with
  | zero =>
    intro pre w post h _ _ _ _
    exfalso
    simp [List.length_append] at h
  | succ f ih =>
    intro pre w post h hpre hw hall hpost
    cases pre with
    | nil =>
      simp only [List.nil_append, List.cons_append, subSlashWordF, if_pos rfl]
      obtain ⟨htake, hdrop⟩ := takeWhile_all_app (fun d => isAsciiAlpha d) w post
        (fun c hc => hall c hc)
        (by cases post with | nil => trivial | cons pc pcs => exact hpost)
      cases hww : w with
      | nil => exact absurd hww hw
      | cons e es =>
        rw [hww] at htake hdrop
        simp only [List.cons_append] at htake hdrop
        simp only [List.append_eq, List.cons_append, ite_true, htake, hdrop]
        have hpl : post.length ≤ f := by
          simp [List.length_append] at h
          omega
        rw [subSlashWordF_fuel f post.length post hpl le_rfl]
        simp [subSlashWord]
    | cons a pre' =>
      have ha : ¬ a = '\\' := by
        intro hh
        exact hpre (by simp [hh])
      have hpre' : '\\' ∉ pre' := by
        intro hh
        exact hpre (by simp [hh])
      simp only [List.cons_append, subSlashWordF, if_neg ha]
      have hrec := ih pre' w post (by simp [List.length_append] at h ⊢; omega) hpre' hw hall hpost
      simp only [List.append_eq, List.append_assoc, List.cons_append] at hrec ⊢
      rw [hrec]

/-- C6 (amended): the final normalization step removes exactly the
    leading backslash of each bare word-command and leaves everything
    else — backslash-free content in particular — unchanged; it gives
    dollar-delimited math spans no special treatment, so a command inside
    a math span is also stripped (`$\alpha$` → `$alpha$`), while a math
    span without commands or surplus whitespace passes through the whole
    normalizer unchanged. -/
theorem slash_strip_amended :
    (∀ l, '\\' ∉ l → subSlashWord l = l)
    ∧ (∀ pre w post, '\\' ∉ pre → w ≠ [] → (∀ c ∈ w, isAsciiAlpha c = true) →
        (match post with | [] => True | pc :: _ => isAsciiAlpha pc = false) →
        subSlashWord (pre ++ '\\' :: w ++ post) = pre ++ w ++ subSlashWord post)
    ∧ clean_latex_text "$x+y$".data = "$x+y$".data
    ∧ clean_latex_text "$\\alpha$".data = "$alpha$".data := by
  refine ⟨?_, ?_, by decide, by decide⟩
  · intro l hl
    exact subSlashWordF_no_bs l.length l le_rfl hl
  · intro pre w post hpre hw hall hpost
    exact subSlashWordF_struct (pre ++ '\\' :: w ++ post).length pre w post
      le_rfl hpre hw hall hpost

/-- Witness for C6 (amended) on concrete inputs. -/
theorem slash_strip_amended_witness :
    subSlashWord "ab".data = "ab".data
      ∧ subSlashWord ("x=y ".data ++ '\\' :: "alpha".data ++ []) =
          "x=y ".data ++ "alpha".data ++ subSlashWord [] :=
  ⟨slash_strip_amended.1 "ab".data (by decide),
    slash_strip_amended.2.1 "x=y ".data "alpha".data [] (by decide) (by decide)
      (by decide) trivial⟩

/-- C6 as stated is false: the input `$\alpha$` is a dollar-delimited
    math span containing no whitespace at all — whitespace collapsing
    leaves it untouched — yet normalization changes its contents by
    stripping the command's backslash. -/
theorem math_span_counterexample :
    clean_latex_text "$\\alpha$".data = "$alpha$".data
      ∧ collapseWS (stripWS "$\\alpha$".data) = "$\\alpha$".data
      ∧ "$alpha$".data ≠ "$\\alpha$".data := by
  refine ⟨by decide, by decide, by decide⟩

theorem readQuoted_esc : ∀ (f rest : List Char),
    (rest = [] ∨ rest.headD 'x' ≠ '"') →
    readQuoted (escQuotes f ++ '"' :: rest) = some (f, rest) := by
  intro f
  induction f with
  | nil =>
    intro rest hrest
    cases rest with
    | nil => rfl
    | cons d ds =>
      have hd : ¬ d = '"' := by
        rcases hrest with h | h
        · cases h
        · rw [List.headD_cons] at h; exact h
      simp [escQuotes, readQuoted, hd]
  | cons c f' ih =>
    intro rest hrest
    by_cases hc : c = '"'
    · subst hc
      simp [escQuotes, readQuoted, ih rest hrest]
    · simp only [escQuotes, if_neg hc, List.cons_append]
      rw [readQuoted.eq_def]
      simp only [hc]
      rw [ih rest hrest]
      simp

theorem readRaw_app : ∀ (f rest : List Char),
    (∀ c ∈ f, ¬(c = ',' ∨ c = '\r')) →
    (rest = [] ∨ rest.headD 'x' = ',' ∨ rest.headD 'x' = '\r') →
    readRaw (f ++ rest) = (f, rest) := by
  intro f
  induction f with
  | nil =>
    intro rest _ hrest
    cases rest with
    | nil => rfl
    | cons d ds =>
      have hd : d = ',' ∨ d = '\r' := by
        rcases hrest with h | h | h
        · cases h
        · left; simpa using h
        · right; simpa using h
      simp only [List.nil_append, readRaw, if_pos hd]
  | cons c f' ih =>
    intro rest hall hrest
    have hc : ¬(c = ',' ∨ c = '\r') := hall c (by simp)
    have hih := ih rest (fun d hd => hall d (by simp [hd])) hrest
    simp only [List.cons_append, readRaw, if_neg hc]
    simp [hih]

theorem readField_enc (f rest : List Char)
    (hrest : rest = [] ∨ rest.headD 'x' = ',' ∨ rest.headD 'x' = '\r') :
    readField (encodeField f ++ rest) = some (f, rest) := by
  by_cases hq : needsQuote f = true
  · simp only [encodeField, if_pos hq]
    have hform : ('"' :: (escQuotes f ++ ['"'])) ++ rest
        = '"' :: (escQuotes f ++ '"' :: rest) := by simp
    rw [hform]
    simp only [readField, if_pos rfl]
    refine readQuoted_esc f rest ?_
    rcases hrest with h | h | h
    · exact Or.inl h
    · exact Or.inr (by rw [h]; decide)
    · exact Or.inr (by rw [h]; decide)
  · have hq' : needsQuote f = false := by simpa using hq
    have hchar : ∀ c ∈ f, ¬ c = ',' ∧ ¬ c = '"' ∧ ¬ c = '\r' ∧ ¬ c = '\n' := by
      intro c hc
      have h4 := List.any_eq_false.mp hq' c hc
      simp at h4
      tauto
    simp only [encodeField, if_neg hq]
    cases hf : f with
    | nil =>
      cases rest with
      | nil => rfl
      | cons d ds =>
        have hd : d = ',' ∨ d = '\r' := by
          rcases hrest with h | h | h
          · cases h
          · left; simpa using h
          · right; simpa using h
        have hdq : ¬ d = '"' := by
          rcases hd with h | h <;> simp [h]
        simp only [List.nil_append, readField, if_neg hdq, readRaw, if_pos hd]
    | cons a f' =>
      subst hf
      have ha := hchar a (by simp)
      have hraw := readRaw_app (a :: f') rest
        (by
          intro c hc
          have := hchar c hc
          intro hcon
          rcases hcon with h | h
          · exact this.1 h
          · exact this.2.2.1 h)
        hrest
      simp only [List.cons_append, readField, if_neg ha.2.1]
      simp only [List.cons_append] at hraw
      simp [hraw]

theorem readRowsF_step (g : Nat) (e : Entry) (W : List Char) :
    readRowsF (g + 1) (encodeRow e ++ W)
      = match readRowsF g W with
        | some rows => some ((e.name, e.description) :: rows)
        | none => none := by
  have hne : ¬ encodeRow e ++ W = [] := by simp [encodeRow]
  simp only [readRowsF, if_neg hne]
  have hsplit : encodeRow e ++ W
      = encodeField e.name ++ (',' :: (encodeField e.description ++ ('\r' :: '\n' :: W))) := by
    simp [encodeRow]
  rw [hsplit]
  have h1 := readField_enc e.name
    (',' :: (encodeField e.description ++ ('\r' :: '\n' :: W))) (by simp)
  have h2 := readField_enc e.description ('\r' :: '\n' :: W) (by simp)
  simp only [h1, h2]

theorem readRows_write : ∀ (entries : List Entry) (f : Nat), entries.length ≤ f →
    readRowsF f (write_anki_csv entries)
      = some (entries.map fun e => (e.name, e.description)) := by
  intro entries
  induction entries with
  | nil =>
    intro f _
    cases f with
    | zero => rfl
    | succ g => rfl
  | cons e es ih =>
    intro f hf
    cases f with
    | zero => simp at hf
    | succ g =>
      have hw : write_anki_csv (e :: es) = encodeRow e ++ write_anki_csv es := by
        simp [write_anki_csv]
      rw [hw, readRowsF_step g e (write_anki_csv es), ih g (by simpa using hf)]
      rfl

theorem write_length_ge (entries : List Entry) :
    entries.length ≤ (write_anki_csv entries).length := by
  induction entries with
  | nil => simp [write_anki_csv]
  | cons e es ih =>
    have hw : write_anki_csv (e :: es) = encodeRow e ++ write_anki_csv es := by
      simp [write_anki_csv]
    have h1 : 1 ≤ (encodeRow e).length := by simp [encodeRow]; omega
    rw [hw]
    simp only [List.length_append, List.length_cons]
    omega

/-- C8: writing any list of entries with the record writer and parsing
    the file back RFC-4180-style yields exactly the original
    (name, description) pairs — one row per entry — including fields
    holding the delimiter or embedded quotes, as the concrete example
    shows. -/
theorem csv_roundtrip :
    (∀ entries, read_anki_csv (write_anki_csv entries)
        = some (entries.map fun e => (e.name, e.description)))
    ∧ read_anki_csv (write_anki_csv
        [Entry.mk "a,b".data "he said \"hi\"".data])
      = some [("a,b".data, "he said \"hi\"".data)] := by
  constructor
  · intro entries
    unfold read_anki_csv
    apply readRows_write
    have := write_length_ge entries
    omega
  · decide

/-- C2: when a parameter block has a description but no `name=` field,
    the key (first brace group) becomes the entry's name; the two
    spec examples evaluate to exactly the stated single entries. -/
theorem gloss_name_fallback :
    (∀ key params d, searchName params = none → findDescVal params = some d →
      d ≠ [] → key ≠ [] →
      glossEntryFromParams key params
        = some ⟨clean_latex_text key, clean_latex_text d⟩)
    ∧ parse_glossary_entries "\\newglossaryentry\x7bk2\x7d\x7bdescription=\x7bD\x7d\x7d".data
        = [Entry.mk "k2".data "D".data]
    ∧ parse_glossary_entries
        "\\newglossaryentry\x7bk1\x7d\x7bname=\x7bFoo\x7d,description=\x7bBar baz\x7d\x7d".data
        = [Entry.mk "Foo".data "Bar baz".data] := by
  refine ⟨?_, by decide, by decide⟩
  intro key params d hname hdesc hd hkey
  simp only [glossEntryFromParams, hname, hdesc]
  rw [if_pos ⟨hkey, hd⟩]

/-- Witness for C2's fallback clause at a concrete parameter block. -/
theorem gloss_name_fallback_witness :
    glossEntryFromParams "k".data "description=\x7bD\x7d".data
      = some ⟨clean_latex_text "k".data, clean_latex_text "D".data⟩ :=
  gloss_name_fallback.1 "k".data "description=\x7bD\x7d".data "D".data
    (by decide) (by decide) (by decide) (by decide)

/-- C3: an occurrence whose parameter block has no `description={` marker
    with a matched closing brace yields no entry and raises nothing, and
    the scan continues with later occurrences (second example: a
    description-less occurrence followed by a well-formed one yields
    exactly the later occurrence's entry). -/
theorem gloss_missing_description_skip :
    (∀ key params,
      (∀ ds, searchDescIdx params = some ds → find_matching_brace params ds = none) →
      glossEntryFromParams key params = none)
    ∧ parse_glossary_entries "\\newglossaryentry\x7ba\x7d\x7bname=\x7bX\x7d\x7d".data = []
    ∧ parse_glossary_entries
        ("\\newglossaryentry\x7ba\x7d\x7bname=\x7bX\x7d\x7d "
          ++ "\\newglossaryentry\x7bb\x7d\x7bdescription=\x7bD\x7d\x7d").data
        = [Entry.mk "b".data "D".data] := by
  refine ⟨?_, by decide, by decide⟩
  intro key params h
  have hfd : findDescVal params = none := by
    unfold findDescVal
    cases hd : searchDescIdx params with
    | none => rfl
    | some ds => simp only [h ds hd]
  simp only [glossEntryFromParams, hfd]

/-- Witness for C3 at a parameter block with an unterminated description
    brace. -/
theorem gloss_missing_description_skip_witness :
    glossEntryFromParams "k".data "description=\x7bD".data = none :=
  gloss_missing_description_skip.1 "k".data "description=\x7bD".data
    (by
      intro ds hds
      have h0 : searchDescIdx "description=\x7bD".data = some 12 := by decide
      rw [h0] at hds
      cases hds
      decide)

/-- Every entry the acronym loop emits is a cleaned (short form, long
    form) pair whose two cleaned fields are non-empty (the emission guard
    of main.py lines 181-188 runs after cleaning). -/
theorem acroLoopF_mem (text : List Char) : ∀ fuel pos e, e ∈ acroLoopF text fuel pos →
    ∃ a b, e = Entry.mk (clean_latex_text a) (clean_latex_text b)
      ∧ clean_latex_text a ≠ [] ∧ clean_latex_text b ≠ [] := by
  intro fuel
  induction fuel with
  | zero => intro pos e h; simp [acroLoopF] at h
  | succ f ih =>
    intro pos e h
    simp only [acroLoopF] at h
    cases hA : findLitIdx "\\newacronym".data (text.drop pos) with
    | none => simp only [hA] at h; simp at h
    | some i =>
    simp only [hA] at h
    cases hB : findCharFrom text '\x7b' (pos + i) with
    | none => simp only [hB] at h; exact ih _ e h
    | some fb =>
    simp only [hB] at h
    cases hC : find_matching_brace text fb with
    | none => simp only [hC] at h; exact ih _ e h
    | some keyEnd =>
    simp only [hC] at h
    cases hD : findCharFrom text '\x7b' (keyEnd + 1) with
    | none => simp only [hD] at h; exact ih _ e h
    | some sb =>
    simp only [hD] at h
    cases hE : find_matching_brace text sb with
    | none => simp only [hE] at h; exact ih _ e h
    | some shortEnd =>
    simp only [hE] at h
    cases hF : findCharFrom text '\x7b' (shortEnd + 1) with
    | none => simp only [hF] at h; exact ih _ e h
    | some tb =>
    simp only [hF] at h
    cases hG : find_matching_brace text tb with
    | none => simp only [hG] at h; exact ih _ e h
    | some longEnd =>
    simp only [hG] at h
    rcases List.mem_append.mp h with h1 | h2
    · by_cases hc : clean_latex_text (stripWS (slice text (sb + 1) shortEnd)) ≠ []
        ∧ clean_latex_text (stripWS (slice text (tb + 1) longEnd)) ≠ []
      · rw [if_pos hc] at h1
        have he : e = Entry.mk (clean_latex_text (stripWS (slice text (sb + 1) shortEnd)))
            (clean_latex_text (stripWS (slice text (tb + 1) longEnd))) := by
          simpa using h1
        exact ⟨_, _, he, hc.1, hc.2⟩
      · rw [if_neg hc] at h1
        simp at h1
    · exact ih _ e h2

/-- Any entry `glossEntryFromParams` produces has both fields passed
    through the normalizer. -/
theorem glossEntryFromParams_shape (key params : List Char) (e : Entry)
    (h : glossEntryFromParams key params = some e) :
    ∃ a b, e = Entry.mk (clean_latex_text a) (clean_latex_text b) := by
  simp only [glossEntryFromParams] at h
  cases hd : findDescVal params with
  | none => simp only [hd] at h; exact absurd h (by simp)
  | some d =>
    simp only [hd] at h
    split at h
    · exact ⟨_, _, (Option.some_inj.mp h).symm⟩
    · exact absurd h (by simp)

/-- Every entry the glossary loop emits is a cleaned (name, description)
    pair. -/
theorem glossLoopF_mem (text : List Char) : ∀ fuel pos e, e ∈ glossLoopF text fuel pos →
    ∃ a b, e = Entry.mk (clean_latex_text a) (clean_latex_text b) := by
  intro fuel
  induction fuel with
  | zero => intro pos e h; simp [glossLoopF] at h
  | succ f ih =>
    intro pos e h
    simp only [glossLoopF] at h
    cases hA : findLitIdx "\\newglossaryentry".data (text.drop pos) with
    | none => simp only [hA] at h; simp at h
    | some i =>
    simp only [hA] at h
    cases hB : findCharFrom text '\x7b' (pos + i) with
    | none => simp only [hB] at h; exact ih _ e h
    | some fb =>
    simp only [hB] at h
    cases hC : find_matching_brace text fb with
    | none => simp only [hC] at h; exact ih _ e h
    | some keyEnd =>
    simp only [hC] at h
    cases hD : findCharFrom text '\x7b' (keyEnd + 1) with
    | none => simp only [hD] at h; exact ih _ e h
    | some sb =>
    simp only [hD] at h
    cases hE : find_matching_brace text sb with
    | none => simp only [hE] at h; exact ih _ e h
    | some paramsEnd =>
    simp only [hE] at h
    cases hF : glossEntryFromParams (stripWS (slice text (fb + 1) keyEnd))
        (slice text (sb + 1) paramsEnd) with
    | none => simp only [hF] at h; exact ih _ e h
    | some e' =>
      simp only [hF] at h
      rcases List.mem_cons.mp h with h1 | h2
      · exact h1 ▸ glossEntryFromParams_shape _ _ e' hF
      · exact ih _ e h2

/-- C10: both fields of every entry the parser returns pass through the
    normalizer, so they contain no newline or tab, every whitespace
    character is a single plain space, no two adjacent characters are
    whitespace, and neither edge is whitespace. -/
theorem output_field_invariant :
    ∀ (text : List Char) (e : Entry), e ∈ parse_all_entries text →
      cleanField e.name ∧ cleanField e.description := by
  intro text e h
  simp only [parse_all_entries] at h
  rcases List.mem_append.mp h with hg | ha
  · obtain ⟨a, b, he⟩ := glossLoopF_mem text _ 0 e hg
    subst he
    exact ⟨clean_latex_text_clean a, clean_latex_text_clean b⟩
  · obtain ⟨a, b, he, _, _⟩ := acroLoopF_mem text _ 0 e ha
    subst he
    exact ⟨clean_latex_text_clean a, clean_latex_text_clean b⟩

/-- Witness for C10 at a concrete parsed entry. -/
theorem output_field_invariant_witness :
    cleanField (Entry.mk "k2".data "D".data).name
      ∧ cleanField (Entry.mk "k2".data "D".data).description :=
  output_field_invariant
    "\\newglossaryentry\x7bk2\x7d\x7bdescription=\x7bD\x7d\x7d".data
    (Entry.mk "k2".data "D".data) (by decide)

/-- C4: the acronym extractor emits (short form, long form) with the key
    discarded — `{cpu}{CPU}{Central Processing Unit}` yields exactly
    `("CPU", "Central Processing Unit")` — an occurrence missing one of
    its three groups is skipped without error, and every emitted entry
    has both fields non-empty after normalization. -/
theorem acronym_extractor :
    (∀ text e, e ∈ parse_acronym_entries text → e.name ≠ [] ∧ e.description ≠ [])
    ∧ parse_acronym_entries
        "\\newacronym\x7bcpu\x7d\x7bCPU\x7d\x7bCentral Processing Unit\x7d".data
        = [Entry.mk "CPU".data "Central Processing Unit".data]
    ∧ parse_acronym_entries "\\newacronym\x7ba\x7d\x7bB\x7d".data = [] := by
  refine ⟨?_, by decide, by decide⟩
  intro text e h
  obtain ⟨a, b, he, ha, hb⟩ := acroLoopF_mem text (text.length + 1) 0 e h
  subst he
  exact ⟨ha, hb⟩

/-- Witness for C4's universal clause at the concrete CPU entry. -/
theorem acronym_extractor_witness :
    (Entry.mk "CPU".data "Central Processing Unit".data).name ≠ []
      ∧ (Entry.mk "CPU".data "Central Processing Unit".data).description ≠ [] :=
  acronym_extractor.1
    "\\newacronym\x7bcpu\x7d\x7bCPU\x7d\x7bCentral Processing Unit\x7d".data
    (Entry.mk "CPU".data "Central Processing Unit".data) (by decide)

theorem findCharFrom_ge (text : List Char) (c : Char) (s j : Nat)
    (h : findCharFrom text c s = some j) : s ≤ j := by
  unfold findCharFrom at h
  cases hi : findCharIn (text.drop s) c with
  | none => rw [hi] at h; cases h
  | some k => rw [hi] at h; simp at h; omega

theorem findLitIdx_nil (pat : List Char) (h : pat ≠ []) : findLitIdx pat [] = none := by
  simp [findLitIdx, h]

/-- The glossary scan loop is insensitive to its fuel once the fuel
    covers the remaining buffer: the loop always exits through its own
    no-match test, never by fuel exhaustion. -/
theorem glossLoopF_fuel (text : List Char) : ∀ f1 f2 pos,
    text.length + 1 ≤ f1 + pos → text.length + 1 ≤ f2 + pos →
    glossLoopF text f1 pos = glossLoopF text f2 pos := by
  intro f1
  induction f1 with
  | zero =>
    intro f2 pos h1 h2
    have hdrop : text.drop pos = [] := List.drop_eq_nil_of_le (by omega)
    cases f2 with
    | zero => rfl
    | succ g =>
      simp only [glossLoopF, hdrop]
      rw [findLitIdx_nil _ (by decide)]
  | succ f1 ih =>
    intro f2 pos h1 h2
    cases f2 with
    | zero =>
      have hdrop : text.drop pos = [] := List.drop_eq_nil_of_le (by omega)
      simp only [glossLoopF, hdrop]
      rw [findLitIdx_nil _ (by decide)]
    | succ g =>
      simp only [glossLoopF]
      cases hA : findLitIdx "\\newglossaryentry".data (text.drop pos) with
      | none => simp only [hA]
      | some i =>
      simp only [hA]
      cases hB : findCharFrom text '\x7b' (pos + i) with
      | none => simp only [hB]; exact ih g (pos + i + 17) (by omega) (by omega)
      | some fb =>
      simp only [hB]
      have hfb : pos + i ≤ fb := findCharFrom_ge text '\x7b' (pos + i) fb hB
      cases hC : find_matching_brace text fb with
      | none => simp only [hC]; exact ih g (pos + i + 17) (by omega) (by omega)
      | some keyEnd =>
      simp only [hC]
      have hke : fb < keyEnd := (find_matching_brace_some_bound text fb keyEnd hC).1
      cases hD : findCharFrom text '\x7b' (keyEnd + 1) with
      | none => simp only [hD]; exact ih g (pos + i + 17) (by omega) (by omega)
      | some sb =>
      simp only [hD]
      have hsb : keyEnd + 1 ≤ sb := findCharFrom_ge text '\x7b' (keyEnd + 1) sb hD
      cases hE : find_matching_brace text sb with
      | none => simp only [hE]; exact ih g (pos + i + 17) (by omega) (by omega)
      | some paramsEnd =>
      simp only [hE]
      have hpe : sb < paramsEnd := (find_matching_brace_some_bound text sb paramsEnd hE).1
      cases hF : glossEntryFromParams (stripWS (slice text (fb + 1) keyEnd))
          (slice text (sb + 1) paramsEnd) with
      | none => simp only [hF]; exact ih g (paramsEnd + 1) (by omega) (by omega)
      | some e =>
        simp only [hF]
        rw [ih g (paramsEnd + 1) (by omega) (by omega)]

/-- Acronym-loop analogue of `glossLoopF_fuel`. -/
theorem acroLoopF_fuel (text : List Char) : ∀ f1 f2 pos,
    text.length + 1 ≤ f1 + pos → text.length + 1 ≤ f2 + pos →
    acroLoopF text f1 pos = acroLoopF text f2 pos := by
  intro f1
  induction f1 with
  | zero =>
    intro f2 pos h1 h2
    have hdrop : text.drop pos = [] := List.drop_eq_nil_of_le (by omega)
    cases f2 with
    | zero => rfl
    | succ g =>
      simp only [acroLoopF, hdrop]
      rw [findLitIdx_nil _ (by decide)]
  | succ f1 ih =>
    intro f2 pos h1 h2
    cases f2 with
    | zero =>
      have hdrop : text.drop pos = [] := List.drop_eq_nil_of_le (by omega)
      simp only [acroLoopF, hdrop]
      rw [findLitIdx_nil _ (by decide)]
    | succ g =>
      simp only [acroLoopF]
      cases hA : findLitIdx "\\newacronym".data (text.drop pos) with
      | none => simp only [hA]
      | some i =>
      simp only [hA]
      cases hB : findCharFrom text '\x7b' (pos + i) with
      | none => simp only [hB]; exact ih g (pos + i + 11) (by omega) (by omega)
      | some fb =>
      simp only [hB]
      have hfb : pos + i ≤ fb := findCharFrom_ge text '\x7b' (pos + i) fb hB
      cases hC : find_matching_brace text fb with
      | none => simp only [hC]; exact ih g (pos + i + 11) (by omega) (by omega)
      | some keyEnd =>
      simp only [hC]
      have hke : fb < keyEnd := (find_matching_brace_some_bound text fb keyEnd hC).1
      cases hD : findCharFrom text '\x7b' (keyEnd + 1) with
      | none => simp only [hD]; exact ih g (pos + i + 11) (by omega) (by omega)
      | some sb =>
      simp only [hD]
      have hsb : keyEnd + 1 ≤ sb := findCharFrom_ge text '\x7b' (keyEnd + 1) sb hD
      cases hE : find_matching_brace text sb with
      | none => simp only [hE]; exact ih g (pos + i + 11) (by omega) (by omega)
      | some shortEnd =>
      simp only [hE]
      have hse : sb < shortEnd := (find_matching_brace_some_bound text sb shortEnd hE).1
      cases hF : findCharFrom text '\x7b' (shortEnd + 1) with
      | none => simp only [hF]; exact ih g (pos + i + 11) (by omega) (by omega)
      | some tb =>
      simp only [hF]
      have htb : shortEnd + 1 ≤ tb := findCharFrom_ge text '\x7b' (shortEnd + 1) tb hF
      cases hG : find_matching_brace text tb with
      | none => simp only [hG]; exact ih g (pos + i + 11) (by omega) (by omega)
      | some longEnd =>
        simp only [hG]
        have hle : tb < longEnd := (find_matching_brace_some_bound text tb longEnd hG).1
        rw [ih g (longEnd + 1) (by omega) (by omega)]

/-- C9: totality of the pipeline.  All indices the brace matcher reports
    are in range (so Python-side indexing cannot fault), both scan loops
    return as soon as no further command occurrence exists — their result
    is independent of the iteration budget once it covers the buffer —
    and the whole pipeline returns (an empty) result on empty, truncated
    and malformed inputs instead of raising. -/
theorem pipeline_totality :
    (∀ text s j, find_matching_brace text s = some j → s < j ∧ j < text.length)
    ∧ (∀ text f, text.length + 1 ≤ f →
        glossLoopF text f 0 = parse_glossary_entries text
          ∧ acroLoopF text f 0 = parse_acronym_entries text)
    ∧ clean_latex_text [] = []
    ∧ parse_all_entries [] = []
    ∧ parse_all_entries "\\newglossaryentry".data = []
    ∧ parse_all_entries "\\newglossaryentry\x7ba\x7b".data = []
    ∧ parse_all_entries "\\newacronym\x7bx\x7d\x7by\x7d\x7bz".data = [] := by
  refine ⟨?_, ?_, by decide, by decide, by decide, by decide, by decide⟩
  · intro text s j h
    have := find_matching_brace_some_bound text s j h
    exact ⟨this.1, this.2.1⟩
  · intro text f hf
    exact ⟨glossLoopF_fuel text f (text.length + 1) 0 (by omega) (by omega),
      acroLoopF_fuel text f (text.length + 1) 0 (by omega) (by omega)⟩

/-- Witness for C9: in-range indices at a concrete call, and fuel
    insensitivity at a concrete buffer and budget. -/
theorem pipeline_totality_witness :
    (0 < 2 ∧ 2 < "\x7bx\x7d".data.length)
      ∧ (glossLoopF "a".data 7 0 = parse_glossary_entries "a".data
          ∧ acroLoopF "a".data 7 0 = parse_acronym_entries "a".data) :=
  ⟨pipeline_totality.1 "\x7bx\x7d".data 0 2 (by decide),
    pipeline_totality.2.1 "a".data 7 (by decide)⟩

/-- C5: the combined output is all glossary entries (source order) then
    all acronym entries (source order) — by the very definition of
    `parse_all_entries` — so a glossary entry appearing textually after
    an acronym still precedes it in the output, as the concrete example
    shows. -/
theorem parse_all_ordering :
    (∀ text, parse_all_entries text
        = parse_glossary_entries text ++ parse_acronym_entries text)
    ∧ parse_all_entries
        ("\\newacronym\x7ba\x7d\x7bAB\x7d\x7bAlpha Beta\x7d "
          ++ "\\newglossaryentry\x7bg\x7d\x7bdescription=\x7bG\x7d\x7d").data
        = [Entry.mk "g".data "G".data, Entry.mk "AB".data "Alpha Beta".data] :=
  ⟨fun _ => rfl, by decide⟩

end LatexAnki
